import Mathlib

/-!
Shallow embedding of `src/src/editor/Editor.ts` from the MapscrollerEditor
repository: the timeline view-model synchronizer and the edit bridge.
JSON-shaped data blobs are modelled by the inductive `JValue`; JS objects
are association lists preserving key insertion order, matching the
runtime behaviour of spread, property assignment and `for..in` iteration.
-/

namespace MapscrollerEditor

/-- A JSON-like runtime value (the JS values flowing through the editor). -/
inductive JValue where
  | num (n : Int)
  | str (s : String)
  | jbool (b : Bool)
  | jnull
  | arr (xs : List JValue)
  | obj (fields : List (String × JValue))
deriving Repr

mutual
def JValue.beq : JValue → JValue → Bool
  | .num a, .num b => a == b
  | .str a, .str b => a == b
  | .jbool a, .jbool b => a == b
  | .jnull, .jnull => true
  | .arr xs, .arr ys => JValue.beqList xs ys
  | .obj xs, .obj ys => JValue.beqObj xs ys
  | _, _ => false

def JValue.beqList : List JValue → List JValue → Bool
  | [], [] => true
  | x :: xs, y :: ys => JValue.beq x y && JValue.beqList xs ys
  | _, _ => false

def JValue.beqObj : List (String × JValue) → List (String × JValue) → Bool
  | [], [] => true
  | (k, v) :: xs, (k2, w) :: ys => k == k2 && JValue.beq v w && JValue.beqObj xs ys
  | _, _ => false
end

mutual
theorem JValue.beq_iff : (a b : JValue) → (JValue.beq a b = true ↔ a = b)
  | .num a, .num b => by simp [JValue.beq]
  | .num _, .str _ => by simp [JValue.beq]
  | .num _, .jbool _ => by simp [JValue.beq]
  | .num _, .jnull => by simp [JValue.beq]
  | .num _, .arr _ => by simp [JValue.beq]
  | .num _, .obj _ => by simp [JValue.beq]
  | .str _, .num _ => by simp [JValue.beq]
  | .str a, .str b => by simp [JValue.beq]
  | .str _, .jbool _ => by simp [JValue.beq]
  | .str _, .jnull => by simp [JValue.beq]
  | .str _, .arr _ => by simp [JValue.beq]
  | .str _, .obj _ => by simp [JValue.beq]
  | .jbool _, .num _ => by simp [JValue.beq]
  | .jbool _, .str _ => by simp [JValue.beq]
  | .jbool a, .jbool b => by simp [JValue.beq]
  | .jbool _, .jnull => by simp [JValue.beq]
  | .jbool _, .arr _ => by simp [JValue.beq]
  | .jbool _, .obj _ => by simp [JValue.beq]
  | .jnull, .num _ => by simp [JValue.beq]
  | .jnull, .str _ => by simp [JValue.beq]
  | .jnull, .jbool _ => by simp [JValue.beq]
  | .jnull, .jnull => by simp [JValue.beq]
  | .jnull, .arr _ => by simp [JValue.beq]
  | .jnull, .obj _ => by simp [JValue.beq]
  | .arr _, .num _ => by simp [JValue.beq]
  | .arr _, .str _ => by simp [JValue.beq]
  | .arr _, .jbool _ => by simp [JValue.beq]
  | .arr _, .jnull => by simp [JValue.beq]
  | .arr xs, .arr ys => by simp [JValue.beq, JValue.beqList_iff xs ys]
  | .arr _, .obj _ => by simp [JValue.beq]
  | .obj _, .num _ => by simp [JValue.beq]
  | .obj _, .str _ => by simp [JValue.beq]
  | .obj _, .jbool _ => by simp [JValue.beq]
  | .obj _, .jnull => by simp [JValue.beq]
  | .obj _, .arr _ => by simp [JValue.beq]
  | .obj xs, .obj ys => by simp [JValue.beq, JValue.beqObj_iff xs ys]

theorem JValue.beqList_iff : (xs ys : List JValue) → (JValue.beqList xs ys = true ↔ xs = ys)
  | [], [] => by simp [JValue.beqList]
  | [], _ :: _ => by simp [JValue.beqList]
  | _ :: _, [] => by simp [JValue.beqList]
  | x :: xs, y :: ys => by
      simp [JValue.beqList, JValue.beq_iff x y, JValue.beqList_iff xs ys]

theorem JValue.beqObj_iff :
    (xs ys : List (String × JValue)) → (JValue.beqObj xs ys = true ↔ xs = ys)
  | [], [] => by simp [JValue.beqObj]
  | [], _ :: _ => by simp [JValue.beqObj]
  | _ :: _, [] => by simp [JValue.beqObj]
  | (k, v) :: xs, (k2, w) :: ys => by
      simp [JValue.beqObj, JValue.beq_iff v w, JValue.beqObj_iff xs ys, and_assoc]
end

instance : DecidableEq JValue := fun a b => decidable_of_iff _ (JValue.beq_iff a b)

/-- A JS object: ordered association list of fields. -/
abbrev JObj := List (String × JValue)

/-- Reading a property of a JS object (`o[k]`): first matching key. -/
def getField (o : JObj) (k : String) : Option JValue :=
  match o with
  | [] => none
  | (k2, v) :: rest => if k2 = k then some v else getField rest k

/-- JS property assignment `o[k] = v`: replaces in place if the key is
present (keeping its position), appends otherwise. -/
def setField (o : JObj) (k : String) (v : JValue) : JObj :=
  match o with
  | [] => [(k, v)]
  | (k2, w) :: rest => if k2 = k then (k2, v) :: rest else (k2, w) :: setField rest k v

/-- JS object spread target update: `{...a, ...b}` assigns each field of b
over a, in order. -/
def mergeObj (a b : JObj) : JObj :=
  b.foldl (fun acc kv => setField acc kv.1 kv.2) a

/-- What `{...v}` spreads out of an arbitrary JS value: objects give their
fields, strings and arrays their indexed entries, primitives nothing. -/
def spreadFields : JValue → JObj
  | .obj fs => fs
  | .str s => (s.toList.enum).map (fun p => (toString p.1, JValue.str (String.mk [p.2])))
  | .arr xs => (xs.enum).map (fun p => (toString p.1, p.2))
  | _ => []

/-- Model of the platform JSON.stringify string escaping. -/
def escapeString (s : String) : String :=
  s.toList.foldl (fun acc c =>
    if c = '"' then acc ++ "\\\""
    else if c = '\\' then acc ++ "\\\\"
    else acc.push c) ""

def serString (s : String) : String := "\"" ++ escapeString s ++ "\""

mutual
/-- Model of the platform JSON.stringify (no-indent form used by the
editor's change guards). -/
def stringify : JValue → String
  | .num n => toString n
  | .str s => serString s
  | .jbool b => if b then "true" else "false"
  | .jnull => "null"
  | .arr xs => "[" ++ stringifyList xs ++ "]"
  | .obj fs => "\x7b" ++ stringifyObj fs ++ "\x7d"

def stringifyList : List JValue → String
  | [] => ""
  | [x] => stringify x
  | x :: y :: xs => stringify x ++ "," ++ stringifyList (y :: xs)

def stringifyObj : List (String × JValue) → String
  | [] => ""
  | [(k, v)] => serString k ++ ":" ++ stringify v
  | (k, v) :: f :: fs => serString k ++ ":" ++ stringify v ++ "," ++ stringifyObj (f :: fs)
end

/-- A `ParsedInterpolationStop` as consumed by the editor: an absolute
position, a stop type tag, and the underlying raw stop fields. -/
structure PStop where
  absolutePosition : Int
  stype : String
deriving Repr, DecidableEq

/-- An `IInterpolator`: exposes an ordered list of parsed stops. -/
structure Interp where
  stops : List PStop
deriving Repr, DecidableEq

/-- An `IEditorContent`: interval bounds `low`/`high`, optional type and
label accessors, the mutable JSON data blob behind `getData`/`setData`,
and the named-interpolator map from `getInterpolators` (a JS `Record`,
iterated in insertion order). `getLabelR` is the result of the optional
chain `getLabel?.()`. -/
structure Content where
  low : Int
  high : Int
  getTypeR : Option String
  getLabelR : Option String
  data : Option JObj
  interpolators : List (String × Interp)
deriving Repr, DecidableEq

/-- `content.setData(d)`: the host stores the new blob. -/
def Content.setData (c : Content) (d : JObj) : Content := { c with data := some d }

/-- A `TKey` timeline keyframe. -/
structure TKey where
  val : Int
  keyIdx : Nat
  ktype : String
  group : Option String := none
deriving Repr, DecidableEq

/-- A `TRow` (the runtime shape of both `TRowModule` and `TRowProperty`):
fields absent on one variant are `none`. -/
structure TRow where
  rtype : String
  contentType : Option String := none
  label : Option String := none
  min : Option Int := none
  max : Option Int := none
  hidden : Bool
  moduleIdx : Nat
  propertyName : Option String := none
  keyframes : List TKey
deriving Repr, DecidableEq

/-- The `_expandedRows` array (`Array<boolean | undefined>`, may contain
holes, read through JS truthiness). -/
abbrev Flags := List (Option Bool)

/-- Truthiness of `flags[i]`: a hole or out-of-range read is `undefined`,
which is falsy. -/
def flagAt (flags : Flags) (i : Nat) : Bool :=
  match flags[i]? with
  | some (some b) => b
  | _ => false

/-- JS sparse-array assignment `flags[i] = b`: in-range writes replace,
out-of-range writes extend the array with holes. -/
def setFlag (flags : Flags) (i : Nat) (b : Bool) : Flags :=
  if i < flags.length then flags.set i (some b)
  else flags ++ List.replicate (i - flags.length) none ++ [some b]

/-- `_rowFromContent`: the module row for one content, with its two
synthetic boundary keyframes. -/
def rowFromContent (c : Content) (moduleIdx : Nat) : TRow :=
  { rtype := "module"
    contentType := c.getTypeR
    label := c.getLabelR.orElse (fun _ => c.getTypeR)
    hidden := false
    moduleIdx := moduleIdx
    keyframes :=
      [ { val := c.low, keyIdx := 0, ktype := "absolute" },
        { val := c.high, keyIdx := 1, ktype := "absolute" } ] }

/-- `_rowFromProperty`: the property row for one interpolator, one
keyframe per stop. -/
def rowFromProperty (c : Content) (moduleIdx : Nat) (propertyName : String)
    (interpolator : Interp) (flags : Flags) : TRow :=
  { rtype := "property"
    label := some propertyName
    min := some c.low
    max := some c.high
    hidden := !flagAt flags moduleIdx
    moduleIdx := moduleIdx
    propertyName := some propertyName
    keyframes := (interpolator.stops.enum).map (fun p =>
      { val := p.2.absolutePosition
        keyIdx := p.1
        ktype := p.2.stype
        group := some (propertyName ++ toString p.1) }) }

/-- The rows a single iteration of the `_redrawTimeline` loop pushes for
one content: its module row, then one property row per interpolator. -/
def rowsForContent (c : Content) (moduleIdx : Nat) (flags : Flags) : List TRow :=
  rowFromContent c moduleIdx ::
    c.interpolators.map (fun p => rowFromProperty c moduleIdx p.1 p.2 flags)

/-- `_redrawTimeline`: empties the model rows and rebuilds them by the
indexed `forEach` push loop over the contents. -/
def redrawTimeline (contents : List Content) (flags : Flags) : List TRow :=
  (contents.foldl
    (fun acc c => (acc.1 ++ rowsForContent c acc.2 flags, acc.2 + 1))
    (([] : List TRow), 0)).1

/-- One node of the navigation outline as `_redrawOutline` builds it:
innerText, title and display style. -/
structure ONode where
  text : String
  title : String
  display : String
deriving Repr, DecidableEq

/-- JS `row.label || idx.toString()`: an absent or empty label is falsy. -/
def labelOrIdx (label : Option String) (idx : Nat) : String :=
  match label with
  | some l => if l = "" then toString idx else l
  | none => toString idx

/-- `_redrawOutline`: one outline node per model row, in row order. -/
def redrawOutline (rows : List TRow) : List ONode :=
  (rows.enum).map (fun p =>
    { text := labelOrIdx p.2.label p.1
      title := labelOrIdx p.2.label p.1
      display := if p.2.hidden then "none" else "block" })

/-- The editor's mutable state: contents, per-module expand flags, the
timeline model rows, the outline nodes, the dirty flag, and the multiset
of contents whose `intervalChanged` event carries an attached handler. -/
structure EditorState where
  contents : List Content
  expandedRows : Flags
  rows : List TRow
  outline : List ONode
  dirty : Bool
  subs : List Content
deriving DecidableEq

/-- `addContent`: returns early when the object is already in the list;
otherwise attaches the handler, pushes the content and marks dirty via
`_onContentsChanged`. (The `Array(...).fill(false)`/`Object.assign` pair
in the source builds a local array that is never stored, so it does not
change the state.) -/
def addContent (s : EditorState) (c : Content) : EditorState :=
  if c ∈ s.contents then s
  else { s with
    subs := s.subs ++ [c]
    contents := s.contents ++ [c]
    dirty := true }

/-- `removeContent`: detaches, splices both the contents and the flags at
the found index, and marks dirty. -/
def removeContent (s : EditorState) (c : Content) : EditorState :=
  match (s.contents.indexOf? c) with
  | none => s
  | some idx =>
    { s with
      subs := s.subs.eraseIdx (s.subs.indexOf c)
      contents := s.contents.eraseIdx idx
      expandedRows := s.expandedRows.eraseIdx idx
      dirty := true }

/-- The row walk of `_toggleGroup`: a running `expanded` flag is loaded at
every module row from the (already flipped) flags and each property row's
`hidden` is set to its negation. -/
def toggleWalk (flags : Flags) (expanded : Bool) : List TRow → List TRow
  | [] => []
  | r :: rs =>
    let expanded2 := if r.rtype = "module" then flagAt flags r.moduleIdx else expanded
    let r2 := if r.rtype = "property" then { r with hidden := !expanded2 } else r
    r2 :: toggleWalk flags expanded2 rs

/-- The outline half of the `_toggleGroup` walk: the node at each property
row's index has its display style synchronized with the row. -/
def toggleOutline : List TRow → List ONode → List ONode
  | r :: rs, n :: ns =>
    (if r.rtype = "property" then
      { n with display := if r.hidden then "none" else "block" } else n) ::
      toggleOutline rs ns
  | _, ns => ns

/-- `_toggleGroup(moduleIdx)`: flips the module's flag and rewalks the
rows (and their outline nodes), starting with `expanded = false`. -/
def toggleGroup (s : EditorState) (moduleIdx : Nat) : EditorState :=
  let flags2 := setFlag s.expandedRows moduleIdx (!flagAt s.expandedRows moduleIdx)
  let rows2 := toggleWalk flags2 false s.rows
  { s with
    expandedRows := flags2
    rows := rows2
    outline := toggleOutline rows2 s.outline }

/-- One dirty tick of `_redrawLoop`: `_redrawTimeline` then
`_redrawOutline`, after which the dirty flag is cleared. -/
def redrawFull (s : EditorState) : EditorState :=
  let rows := redrawTimeline s.contents s.expandedRows
  { s with rows := rows, outline := redrawOutline rows, dirty := false }

/-- A tick of `_redrawLoop`: redraws only when dirty. -/
def redrawLoopTick (s : EditorState) : EditorState :=
  if s.dirty then redrawFull s else s

/-- The user-driven operations quantified over by the visibility claim. -/
inductive EOp where
  | toggle (i : Nat)
  | redraw
deriving Repr, DecidableEq

def applyOp (s : EditorState) : EOp → EditorState
  | .toggle i => toggleGroup s i
  | .redraw => redrawFull s

def runOps (s : EditorState) (ops : List EOp) : EditorState := ops.foldl applyOp s

/-- `_getContent`: throws when the index has no content. -/
def getContent (contents : List Content) (moduleIdx : Nat) : Except String Content :=
  match contents.get? moduleIdx with
  | some c => .ok c
  | none => .error "Content not found"

/-- `_absoluteToRelative`: absolute keyframes keep their value, start/end
keyframes become strings of signed offsets from the owning interval's
edges, and any other tag throws. -/
def absoluteToRelative (content : Content) (key : TKey) : Except String JValue :=
  if key.ktype = "absolute" then .ok (.num key.val)
  else if key.ktype = "start" then .ok (.str ("+" ++ toString (key.val - content.low)))
  else if key.ktype = "end" then .ok (.str ("-" ++ toString (content.high - key.val)))
  else .error "Unexpected type"

/-- `_updateModuleKeyframePosition`: writes the dragged value into the
data blob's `low` field when `keyIdx` is 0, `high` otherwise, and hands
the blob to `setData`. (The trailing `_onModuleClicked` call only
refreshes the textarea.) -/
def updateModuleKeyframePosition (contents : List Content) (moduleIdx : Nat)
    (key : TKey) : Except String (List Content) := do
  let content ← getContent contents moduleIdx
  match content.data with
  | none => .error "Module data not yet present"
  | some data =>
    let data2 := setField data (if key.keyIdx = 0 then "low" else "high") (.num key.val)
    .ok (contents.set moduleIdx (content.setData data2))

/-- `data?.interpolators?.[propertyName]` on a data blob: present only
when `interpolators` is an object owning the property. -/
def lookupProperty (data : JObj) (propertyName : String) : Option JValue :=
  match getField data "interpolators" with
  | some (.obj o) => getField o propertyName
  | _ => none

/-- Rebuilding the data blob after the stop array of one interpolator was
mutated in place. -/
def setProperty (data : JObj) (propertyName : String) (stops : List JValue) : JObj :=
  match getField data "interpolators" with
  | some (.obj o) => setField data "interpolators" (.obj (setField o propertyName (.arr stops)))
  | _ => data

/-- `_updatePropertyKeyframePosition`: requires the data blob and a
non-empty stop array for the property (`!property?.length` throws), then
writes the relative-converted dragged value into the `position` field of
the stop at `keyIdx`. Indexing past the array or into a non-object stop
is the JS TypeError of assigning a property of `undefined`/a primitive. -/
def updatePropertyKeyframePosition (contents : List Content) (moduleIdx : Nat)
    (propertyName : String) (key : TKey) : Except String (List Content) := do
  let content ← getContent contents moduleIdx
  match content.data with
  | none => .error "Module data not yet present"
  | some data =>
    match lookupProperty data propertyName with
    | some (.arr stops) =>
      if stops.length = 0 then .error ("Property not found: " ++ propertyName)
      else
        match stops.get? key.keyIdx with
        | some (.obj sf) => do
          let rel ← absoluteToRelative content key
          let stops2 := stops.set key.keyIdx (.obj (setField sf "position" rel))
          .ok (contents.set moduleIdx (content.setData (setProperty data propertyName stops2)))
        | _ => .error "TypeError"
    | _ => .error ("Property not found: " ++ propertyName)

/-- The `e.row as TRow | undefined` view of a dragged element's row: the
engine does not guarantee the editor-specific fields. -/
structure DragRowInfo where
  rtype : String
  moduleIdx : Option Nat
  propertyName : Option String
deriving Repr, DecidableEq

/-- The `e.keyframe as TKey | undefined` view of a dragged keyframe. -/
structure DragKey where
  val : Int
  keyIdx : Option Nat
  ktype : String
deriving Repr, DecidableEq

structure DragElement where
  row : Option DragRowInfo
  keyframe : Option DragKey
deriving Repr, DecidableEq

/-- `_processDragElement`: throws when `row?.moduleIdx` or `key?.keyIdx`
is undefined, then dispatches on the row type. (A missing property name
would be read back as the JS index string "undefined".) -/
def processDragElement (contents : List Content) (e : DragElement) :
    Except String (List Content) :=
  match e.row, e.keyframe with
  | some row, some key =>
    match row.moduleIdx, key.keyIdx with
    | some mi, some ki =>
      let tkey : TKey := { val := key.val, keyIdx := ki, ktype := key.ktype }
      if row.rtype = "module" then updateModuleKeyframePosition contents mi tkey
      else if row.rtype = "property" then
        updatePropertyKeyframePosition contents mi (row.propertyName.getD "undefined") tkey
      else .ok contents
    | _, _ => .error "Unexpected"
  | _, _ => .error "Unexpected"

/-- JS falsiness of a JSON-shaped value. -/
def jsFalsy : JValue → Bool
  | .num n => n = 0
  | .str s => s = ""
  | .jbool b => !b
  | .jnull => true
  | _ => false

/-- `_updateModuleData`: requires the blob, shallow-merges the submitted
partial data over it, and skips `setData` when the serialization of the
merge equals that of the current blob. Returns the blob handed to
`setData`, or `none` for the skipped call. -/
def updateModuleData (content : Content) (newData : JValue) :
    Except String (Option JObj) :=
  match content.data with
  | none => .error "Module data not yet present"
  | some contentData =>
    let merged := mergeObj contentData (spreadFields newData)
    if stringify (.obj merged) = stringify (.obj contentData) then .ok none
    else .ok (some merged)

/-- `_updateKeyframeData`: requires the blob, the property (a stop array
in the blob's interpolator map) and a truthy keyframe at `keyIdx`, then
replaces that stop by the shallow merge of the submitted partial data
over it. Returns the blob handed to `setData`. -/
def updateKeyframeData (content : Content) (propertyName : String)
    (keyIdx : Nat) (newData : JValue) : Except String JObj :=
  match content.data with
  | none => .error "Module data not yet present"
  | some contentData =>
    match lookupProperty contentData propertyName with
    | some (.arr stops) =>
      match stops.get? keyIdx with
      | some kf =>
        if jsFalsy kf then .error "Keyframe not found"
        else
          let kf2 := JValue.obj (mergeObj (spreadFields kf) (spreadFields newData))
          .ok (setProperty contentData propertyName (stops.set keyIdx kf2))
      | none => .error "Keyframe not found"
    | _ => .error "Property not found"

/-- `_onJsonChanged`: looks the content up (outside the try block), clears
the error message and parses the textarea. A parse failure is caught and
displayed, leaving the content untouched. On success the module or
keyframe update runs; those helpers are async and not awaited, so their
throws are unhandled rejections that leave both the content and the
(already cleared) message unchanged. Returns the new contents together
with the displayed error message. -/
def onJsonChanged (contents : List Content) (row : TRow) (key : Option TKey)
    (parsed : Except String JValue) : Except String (List Content × String) := do
  let content ← getContent contents row.moduleIdx
  match parsed with
  | .error e => .ok (contents, e)
  | .ok newData =>
    let c2 :=
      if row.rtype = "module" then
        match updateModuleData content newData with
        | .ok (some merged) => content.setData merged
        | _ => content
      else content
    let c3 :=
      if row.rtype = "property" then
        match key with
        | some k =>
          match updateKeyframeData c2 (row.propertyName.getD "undefined") k.keyIdx newData with
          | .ok d2 => c2.setData d2
          | .error _ => c2
        | none => c2
      else c2
    .ok (contents.set row.moduleIdx c3, "")

/-- The retiming `_expandTimeline` applies to one bound or stop position:
values strictly past the playhead move by `v` but never across it. -/
def expandVal (currentTime v n : Int) : Int :=
  if n > currentTime then max (n + v) currentTime else n

/-- The per-stop body of `_expandTimeline`: a stop whose `position` is not
a number (`typeof s.position !== 'number'`) is skipped; a numeric one
past the playhead is shifted. (Stops are typed `InterpolationStop`
objects; a primitive stop reads `position` as undefined and is skipped.) -/
def expandStop (currentTime v : Int) : JValue → JValue
  | .obj sf =>
    match getField sf "position" with
    | some (.num p) =>
      if p > currentTime then .obj (setField sf "position" (.num (max (p + v) currentTime)))
      else .obj sf
    | _ => .obj sf
  | other => other

/-- `if (data.low > currentTime) data.low = Math.max(data.low + value,
currentTime)` — `low` is typed number in `IContentData`; a non-numeric
value is outside the typed contract and left alone here. -/
def expandLowStep (currentTime v : Int) (d : JObj) : JObj :=
  match getField d "low" with
  | some (.num n) =>
    if n > currentTime then setField d "low" (.num (max (n + v) currentTime)) else d
  | _ => d

/-- The same statement for `data.high`. -/
def expandHighStep (currentTime v : Int) (d : JObj) : JObj :=
  match getField d "high" with
  | some (.num n) =>
    if n > currentTime then setField d "high" (.num (max (n + v) currentTime)) else d
  | _ => d

/-- The value-side of one interpolator entry under `_expandTimeline`:
its stop array is rewritten elementwise. -/
def expandEntry (currentTime v : Int) : JValue → JValue
  | .arr stops => .arr (stops.map (expandStop currentTime v))
  | other => other

/-- `if (data.interpolators) Object.values(...).forEach(stops =>
stops.forEach(...))`: every stop of every interpolator array is visited
in place (interpolator entries are typed `InterpolationStop[]`). -/
def expandInterpStep (currentTime v : Int) (d : JObj) : JObj :=
  match getField d "interpolators" with
  | some (.obj interps) =>
    setField d "interpolators"
      (.obj (interps.map (fun kv => (kv.1, expandEntry currentTime v kv.2))))
  | _ => d

/-- The data-blob rewrite of `_expandTimeline` for one content: the three
mutating statements of the loop body in source order. -/
def expandData (currentTime v : Int) (d : JObj) : JObj :=
  expandInterpStep currentTime v (expandHighStep currentTime v (expandLowStep currentTime v d))

/-- `_expandTimeline(value)`: every content with a data blob has the blob
rewritten and handed back to `setData`; contents without data are
skipped. -/
def expandTimeline (currentTime v : Int) (contents : List Content) : List Content :=
  contents.map (fun c =>
    match c.data with
    | none => c
    | some d => c.setData (expandData currentTime v d))

/-! ### Helper lemmas about JS objects and row building -/

theorem getField_setField_self (o : JObj) (k : String) (v : JValue) :
    getField (setField o k v) k = some v := by
  induction o with
  | nil => simp [getField, setField]
  | cons kv rest ih =>
    obtain ⟨k2, w⟩ := kv
    by_cases h : k2 = k <;> simp [getField, setField, h, ih]

theorem getField_setField_ne (o : JObj) (k k2 : String) (v : JValue) (h : k2 ≠ k) :
    getField (setField o k v) k2 = getField o k2 := by
  induction o with
  | nil => simp [getField, setField, Ne.symm h]
  | cons kv rest ih =>
    obtain ⟨k3, w⟩ := kv
    by_cases h3 : k3 = k
    · subst h3
      simp [getField, setField, Ne.symm h]
    · simp only [setField, if_neg h3]
      by_cases h4 : k3 = k2 <;> simp [getField, h4, ih]

theorem setField_self_of_getField (o : JObj) (k : String) (v : JValue)
    (h : getField o k = some v) : setField o k v = o := by
  induction o with
  | nil => simp [getField] at h
  | cons kv rest ih =>
    obtain ⟨k2, w⟩ := kv
    by_cases h2 : k2 = k
    · subst h2
      simp [getField] at h
      simp [setField, h]
    · simp [getField, h2] at h
      simp [setField, h2, ih h]

theorem getField_mapValues (o : JObj) (k : String) (g : JValue → JValue) :
    getField (o.map (fun kv => (kv.1, g kv.2))) k = (getField o k).map g := by
  induction o with
  | nil => simp [getField]
  | cons kv rest ih =>
    obtain ⟨k2, w⟩ := kv
    by_cases h : k2 = k <;> simp [getField, h, ih]

theorem redrawTimeline_foldl_aux (flags : Flags) :
    ∀ (contents : List Content) (acc : List TRow) (i : Nat),
      (contents.foldl
        (fun acc c => (acc.1 ++ rowsForContent c acc.2 flags, acc.2 + 1))
        (acc, i)).1
        = acc ++ (contents.enumFrom i).flatMap (fun p => rowsForContent p.2 p.1 flags)
  | [], acc, i => by simp [List.enumFrom]
  | c :: cs, acc, i => by
    simp only [List.foldl_cons, List.enumFrom, List.flatMap_cons]
    rw [redrawTimeline_foldl_aux flags cs (acc ++ rowsForContent c i flags) (i + 1)]
    simp [List.append_assoc]

/-- `_redrawTimeline` produces, for each indexed content in order, its
module row followed by its property rows. -/
theorem redrawTimeline_eq_bind (contents : List Content) (flags : Flags) :
    redrawTimeline contents flags
      = contents.enum.flatMap (fun p => rowsForContent p.2 p.1 flags) := by
  simpa [redrawTimeline, List.enum] using redrawTimeline_foldl_aux flags contents [] 0

theorem rowsForContent_length (c : Content) (i : Nat) (flags : Flags) :
    (rowsForContent c i flags).length = 1 + c.interpolators.length := by
  simp [rowsForContent, Nat.add_comm]

theorem length_redrawTimeline (contents : List Content) (flags : Flags) :
    (redrawTimeline contents flags).length
      = contents.length + (contents.map (fun c => c.interpolators.length)).sum := by
  rw [redrawTimeline_eq_bind]
  induction contents using List.reverseRecOn with
  | nil => simp
  | append_singleton cs c ih =>
    simp only [List.enum_append, List.flatMap_append, List.length_append, ih]
    simp [List.enumFrom, rowsForContent_length, List.enum_length]
    omega

/-! ### Sample data for concrete instantiations -/

def sampleStopObj : JObj := [("position", .num 5), ("value", .num 1)]

def sampleData : JObj :=
  [("low", .num 0), ("high", .num 10),
   ("interpolators", .obj [("opacity", .arr [.obj sampleStopObj])])]

def sampleContent : Content :=
  { low := 0
    high := 10
    getTypeR := some "map"
    getLabelR := none
    data := some sampleData
    interpolators := [("opacity", ⟨[⟨5, "start"⟩]⟩)] }

/-- A concrete editor state used for instantiations. -/
def sampleState : EditorState :=
  { contents := [sampleContent], expandedRows := [], rows := [], outline := [],
    dirty := true, subs := [] }

/-! ### Claims -/

/-- C1: every `_redrawTimeline` rebuilds the rows list from scratch from
the current contents: in content order, one module row followed by one
property row per interpolator entry, so the row count is the content
count plus the total interpolator count, and every row produced for
content `i` carries `moduleIdx = i`. -/
theorem redraw_rebuilds_rows (contents : List Content) (flags : Flags) :
    redrawTimeline contents flags
        = contents.enum.flatMap (fun p => rowsForContent p.2 p.1 flags)
    ∧ (redrawTimeline contents flags).length
        = contents.length + (contents.map (fun c => c.interpolators.length)).sum
    ∧ ∀ i c, contents[i]? = some c →
        (rowsForContent c i flags).length = 1 + c.interpolators.length
        ∧ (rowFromContent c i).rtype = "module"
        ∧ (∀ p ∈ c.interpolators, (rowFromProperty c i p.1 p.2 flags).rtype = "property")
        ∧ ∀ r ∈ rowsForContent c i flags, r.moduleIdx = i := by
  refine ⟨redrawTimeline_eq_bind contents flags, length_redrawTimeline contents flags, ?_⟩
  intro i c _
  refine ⟨rowsForContent_length c i flags, rfl, fun p _ => rfl, ?_⟩
  intro r hr
  simp only [rowsForContent, List.mem_cons, List.mem_map] at hr
  rcases hr with h | ⟨p, _, h⟩ <;> subst h <;> rfl

theorem redraw_rebuilds_rows_witness :
    (redrawTimeline [sampleContent] []).length = 1 + 1
    ∧ (rowsForContent sampleContent 0 []).length = 2 := by
  have h := redraw_rebuilds_rows [sampleContent] []
  have h0 := (h.2.2 0 sampleContent rfl).1
  refine ⟨?_, by simpa [sampleContent] using h0⟩
  rw [h.2.1]
  simp [sampleContent]

/-- C2: a module row carries exactly the two absolute boundary keyframes
(low at keyIdx 0, high at keyIdx 1); a property row carries one keyframe
per stop in stop order, with the stop's absolute position as value, the
stop's index as keyIdx and the stop's type as tag. -/
theorem row_keyframes_shape (c : Content) (i : Nat) (name : String)
    (interp : Interp) (flags : Flags) :
    (rowFromContent c i).keyframes
        = [{ val := c.low, keyIdx := 0, ktype := "absolute" },
           { val := c.high, keyIdx := 1, ktype := "absolute" }]
    ∧ (rowFromProperty c i name interp flags).keyframes.length = interp.stops.length
    ∧ ∀ (k : Nat) (s : PStop), interp.stops[k]? = some s →
        (rowFromProperty c i name interp flags).keyframes[k]?
          = some { val := s.absolutePosition, keyIdx := k, ktype := s.stype,
                   group := some (name ++ toString k) } := by
  refine ⟨rfl, by simp [rowFromProperty], ?_⟩
  intro k s hs
  simp [rowFromProperty, List.getElem?_map, List.getElem?_enum, hs]

theorem row_keyframes_shape_witness :
    (rowFromContent sampleContent 0).keyframes
        = [{ val := 0, keyIdx := 0, ktype := "absolute" },
           { val := 10, keyIdx := 1, ktype := "absolute" }]
    ∧ (rowFromProperty sampleContent 0 "opacity" ⟨[⟨5, "start"⟩]⟩ []).keyframes[0]?
        = some { val := 5, keyIdx := 0, ktype := "start", group := some "opacity0" } := by
  have h := row_keyframes_shape sampleContent 0 "opacity" ⟨[⟨5, "start"⟩]⟩ []
  exact ⟨h.1, h.2.2 0 ⟨5, "start"⟩ rfl⟩

/-- C4: `_absoluteToRelative` is determined by the keyframe tag: absolute
keyframes map to their value, start keyframes to "+" before the offset
from the owning content's low bound, end keyframes to "-" before the
offset to the high bound, and any other tag throws. -/
theorem absoluteToRelative_cases (c : Content) (k : TKey) :
    (k.ktype = "absolute" → absoluteToRelative c k = .ok (.num k.val))
    ∧ (k.ktype = "start" →
        absoluteToRelative c k = .ok (.str ("+" ++ toString (k.val - c.low))))
    ∧ (k.ktype = "end" →
        absoluteToRelative c k = .ok (.str ("-" ++ toString (c.high - k.val))))
    ∧ (k.ktype ≠ "absolute" → k.ktype ≠ "start" → k.ktype ≠ "end" →
        absoluteToRelative c k = .error "Unexpected type") := by
  refine ⟨?_, ?_, ?_, ?_⟩
  · intro h
    simp [absoluteToRelative, h]
  · intro h
    simp [absoluteToRelative, h]
  · intro h
    simp [absoluteToRelative, h]
  · intro h1 h2 h3
    simp [absoluteToRelative, h1, h2, h3]

theorem absoluteToRelative_cases_witness :
    absoluteToRelative sampleContent { val := 7, keyIdx := 0, ktype := "start" }
        = .ok (.str "+7")
    ∧ absoluteToRelative sampleContent { val := 7, keyIdx := 0, ktype := "easing" }
        = .error "Unexpected type" := by
  have h1 := absoluteToRelative_cases sampleContent { val := 7, keyIdx := 0, ktype := "start" }
  have h2 := absoluteToRelative_cases sampleContent { val := 7, keyIdx := 0, ktype := "easing" }
  refine ⟨by simpa [sampleContent] using h1.2.1 rfl, ?_⟩
  exact h2.2.2.2 (by decide) (by decide) (by decide)

/-- C8: `addContent` is idempotent at the public interface: on a content
already in the list the whole state (contents, flags, dirty, attached
subscriptions) is untouched, and adding twice equals adding once. -/
theorem addContent_idempotent (s : EditorState) (c : Content) :
    (c ∈ s.contents → addContent s c = s)
    ∧ addContent (addContent s c) c = addContent s c := by
  constructor
  · intro h
    simp [addContent, h]
  · by_cases h : c ∈ s.contents
    · simp [addContent, h]
    · have h2 : c ∈ (addContent s c).contents := by
        simp [addContent, h]
      conv_lhs => rw [addContent]
      rw [if_pos h2]

theorem addContent_idempotent_witness :
    addContent
        { contents := [sampleContent], expandedRows := [some true], rows := [],
          outline := [], dirty := false, subs := [sampleContent] } sampleContent
      = { contents := [sampleContent], expandedRows := [some true], rows := [],
          outline := [], dirty := false, subs := [sampleContent] } :=
  (addContent_idempotent _ sampleContent).1 (by simp)

/-- C9: a module JSON edit whose shallow merge serializes identically to
the current data makes `_updateModuleData` return without calling
`setData`. -/
theorem unchanged_module_edit_noop (c : Content) (cd : JObj) (nd : JValue)
    (hdata : c.data = some cd)
    (heq : stringify (.obj (mergeObj cd (spreadFields nd))) = stringify (.obj cd)) :
    updateModuleData c nd = .ok none := by
  simp [updateModuleData, hdata, heq]

theorem unchanged_module_edit_noop_witness :
    updateModuleData sampleContent (.obj [("low", .num 0)]) = .ok none :=
  unchanged_module_edit_noop sampleContent sampleData (.obj [("low", .num 0)]) rfl rfl

/-- C3: `_processDragElement` translates the engine address into a domain
write: on a module row the dragged value goes to data field `low` when
`keyIdx` is 0 and to `high` otherwise; on a property row the stop at
`keyIdx` of the named interpolator gets its `position` replaced by the
relative-converted dragged value; a missing `moduleIdx` or `keyIdx`
throws and writes nothing. -/
theorem drag_element_translates (contents : List Content) (e : DragElement) :
    ((e.row.bind (fun r => r.moduleIdx) = none
        ∨ e.keyframe.bind (fun k => k.keyIdx) = none) →
      processDragElement contents e = .error "Unexpected")
    ∧ (∀ (mi : Nat) (pn : Option String) (v : Int) (ki : Nat) (kt : String)
          (c : Content) (d : JObj),
        e.row = some { rtype := "module", moduleIdx := some mi, propertyName := pn } →
        e.keyframe = some { val := v, keyIdx := some ki, ktype := kt } →
        contents[mi]? = some c → c.data = some d →
        processDragElement contents e
          = .ok (contents.set mi
              (c.setData (setField d (if ki = 0 then "low" else "high") (.num v)))))
    ∧ (∀ (mi : Nat) (name : String) (v : Int) (ki : Nat) (kt : String)
          (c : Content) (d : JObj) (stops : List JValue) (sf : JObj) (rel : JValue),
        e.row = some { rtype := "property", moduleIdx := some mi,
                       propertyName := some name } →
        e.keyframe = some { val := v, keyIdx := some ki, ktype := kt } →
        contents[mi]? = some c → c.data = some d →
        lookupProperty d name = some (.arr stops) →
        stops ≠ [] →
        stops[ki]? = some (.obj sf) →
        absoluteToRelative c { val := v, keyIdx := ki, ktype := kt } = .ok rel →
        processDragElement contents e
          = .ok (contents.set mi
              (c.setData (setProperty d name
                (stops.set ki (.obj (setField sf "position" rel))))))) := by
  refine ⟨?_, ?_, ?_⟩
  · intro h
    obtain ⟨row, key⟩ := e
    rcases row with _ | r <;> rcases key with _ | k
    · rfl
    · rfl
    · rfl
    · simp only [Option.some_bind] at h
      rcases h with h | h <;> simp [processDragElement, h]
  · intro mi pn v ki kt c d hrow hkey hc hd
    obtain ⟨row, key⟩ := e
    simp only at hrow hkey
    subst hrow hkey
    simp [processDragElement, updateModuleKeyframePosition, getContent, hc, hd, bind, Except.bind]
  · intro mi name v ki kt c d stops sf rel hrow hkey hc hd hprop hne hki hrel
    obtain ⟨row, key⟩ := e
    simp only at hrow hkey
    subst hrow hkey
    have hlen : ¬stops.length = 0 := by
      simpa [List.length_eq_zero] using hne
    simp [processDragElement, updatePropertyKeyframePosition, getContent, hc, hd,
      hprop, hlen, hki, hrel, bind, Except.bind]

theorem drag_element_translates_witness :
    processDragElement [sampleContent]
        { row := some { rtype := "module", moduleIdx := some 0, propertyName := none },
          keyframe := some { val := 42, keyIdx := some 0, ktype := "absolute" } }
      = .ok [sampleContent.setData (setField sampleData "low" (.num 42))] := by
  have h := (drag_element_translates [sampleContent]
      { row := some { rtype := "module", moduleIdx := some 0, propertyName := none },
        keyframe := some { val := 42, keyIdx := some 0, ktype := "absolute" } }).2.1
      0 none 42 0 "absolute" sampleContent sampleData rfl rfl rfl rfl
  simpa using h

/-- C6: submitting the free-text JSON editor: invalid JSON displays the
parse error and leaves the targeted content's data completely unchanged;
a parsed object on a module row is shallow-merged over the content's data
(up to the serialization identity the code's own guard uses, and exactly
when the serializations differ); a parsed object on a property row with a
keyframe is shallow-merged over the stop at the keyframe's index. -/
theorem json_editor_submit (contents : List Content) (row : TRow)
    (key : Option TKey) (c : Content)
    (hc : contents[row.moduleIdx]? = some c) :
    (∀ msg, onJsonChanged contents row key (.error msg) = .ok (contents, msg))
    ∧ (∀ (cd fs : JObj), row.rtype = "module" → c.data = some cd →
        ∃ d3, onJsonChanged contents row key (.ok (.obj fs))
            = .ok (contents.set row.moduleIdx { c with data := some d3 }, "")
          ∧ stringify (.obj d3) = stringify (.obj (mergeObj cd fs))
          ∧ (stringify (.obj (mergeObj cd fs)) ≠ stringify (.obj cd) →
              d3 = mergeObj cd fs))
    ∧ (∀ (cd fs : JObj) (k : TKey) (name : String) (stops : List JValue)
          (kf : JValue),
        row.rtype = "property" → key = some k → row.propertyName = some name →
        c.data = some cd → lookupProperty cd name = some (.arr stops) →
        stops[k.keyIdx]? = some kf → jsFalsy kf = false →
        onJsonChanged contents row key (.ok (.obj fs))
          = .ok (contents.set row.moduleIdx
              (c.setData (setProperty cd name
                (stops.set k.keyIdx (.obj (mergeObj (spreadFields kf) fs))))), "")) := by
  refine ⟨?_, ?_, ?_⟩
  · intro msg
    simp [onJsonChanged, getContent, hc, bind, Except.bind]
  · intro cd fs hm hdata
    by_cases hg : stringify (.obj (mergeObj cd fs)) = stringify (.obj cd)
    · refine ⟨cd, ?_, hg.symm, fun hne => absurd hg hne⟩
      have hceta : ({ c with data := some cd } : Content) = c := by
        rw [← hdata]
      rw [hceta]
      simp [onJsonChanged, getContent, hc, bind, Except.bind, hm,
        updateModuleData, hdata, spreadFields, hg]
    · refine ⟨mergeObj cd fs, ?_, rfl, fun _ => rfl⟩
      simp [onJsonChanged, getContent, hc, bind, Except.bind, hm,
        updateModuleData, hdata, spreadFields, hg, Content.setData]
  · intro cd fs k name stops kf hp hkey hname hdata hprop hkf hfalsy
    subst hkey
    simp [onJsonChanged, getContent, hc, bind, Except.bind, hp,
      updateKeyframeData, hdata, hname, hprop, hkf, hfalsy, spreadFields]

theorem json_editor_submit_witness :
    onJsonChanged [sampleContent]
        { rtype := "module", hidden := false, moduleIdx := 0, keyframes := [] }
        none (.error "Unexpected token u in JSON at position 0")
      = .ok ([sampleContent], "Unexpected token u in JSON at position 0") :=
  (json_editor_submit [sampleContent]
      { rtype := "module", hidden := false, moduleIdx := 0, keyframes := [] }
      none sampleContent rfl).1 "Unexpected token u in JSON at position 0"

/-- C7: after a redraw the outline holds exactly one node per timeline
row, in row order; each node's text and tooltip are the row's label, or
the row's decimal index when the label is absent or empty, and a node is
displayed (style `block` rather than `none`) iff its row is not hidden. -/
theorem outline_mirrors_rows (s : EditorState) :
    (redrawFull s).outline.length = (redrawFull s).rows.length
    ∧ ∀ (i : Nat) (r : TRow) (n : ONode),
        (redrawFull s).rows[i]? = some r → (redrawFull s).outline[i]? = some n →
        n.text = labelOrIdx r.label i
        ∧ n.title = labelOrIdx r.label i
        ∧ (n.display = "block" ↔ r.hidden = false) := by
  constructor
  · simp [redrawFull, redrawOutline]
  · intro i r n hr hn
    simp only [redrawFull, redrawOutline] at hr hn
    rw [List.getElem?_map, List.getElem?_enum, hr] at hn
    simp only [Option.map_some'] at hn
    cases hn
    cases hh : r.hidden <;> simp [hh]

theorem outline_mirrors_rows_witness :
    (redrawFull sampleState).outline.length = (redrawFull sampleState).rows.length
    ∧ (redrawFull sampleState).outline[0]?.map (fun n => n.text) = some "map" := by
  refine ⟨(outline_mirrors_rows sampleState).1, ?_⟩
  simp [sampleState, redrawFull, redrawOutline, redrawTimeline, rowsForContent,
    rowFromContent, sampleContent, labelOrIdx]

theorem getField_expandLowStep_low (t v : Int) (d : JObj) (l : Int)
    (hl : getField d "low" = some (.num l)) :
    getField (expandLowStep t v d) "low" = some (.num (expandVal t v l)) := by
  rw [expandLowStep, hl, expandVal]
  by_cases h : l > t
  · simp [h, getField_setField_self]
  · simp [h, hl]

theorem getField_expandLowStep_of_ne (t v : Int) (d : JObj) (k : String)
    (h : k ≠ "low") : getField (expandLowStep t v d) k = getField d k := by
  rw [expandLowStep]
  split
  · split
    · rw [getField_setField_ne _ _ _ _ h]
    · rfl
  · rfl

theorem getField_expandHighStep_high (t v : Int) (d : JObj) (n : Int)
    (hh : getField d "high" = some (.num n)) :
    getField (expandHighStep t v d) "high" = some (.num (expandVal t v n)) := by
  rw [expandHighStep, hh, expandVal]
  by_cases h : n > t
  · simp [h, getField_setField_self]
  · simp [h, hh]

theorem getField_expandHighStep_of_ne (t v : Int) (d : JObj) (k : String)
    (h : k ≠ "high") : getField (expandHighStep t v d) k = getField d k := by
  rw [expandHighStep]
  split
  · split
    · rw [getField_setField_ne _ _ _ _ h]
    · rfl
  · rfl

theorem getField_expandInterpStep_of_ne (t v : Int) (d : JObj) (k : String)
    (h : k ≠ "interpolators") :
    getField (expandInterpStep t v d) k = getField d k := by
  rw [expandInterpStep]
  split
  · rw [getField_setField_ne _ _ _ _ h]
  · rfl

theorem getField_expandInterpStep_interpolators (t v : Int) (d : JObj) (o : JObj)
    (ho : getField d "interpolators" = some (.obj o)) :
    getField (expandInterpStep t v d) "interpolators"
      = some (.obj (o.map (fun kv => (kv.1, expandEntry t v kv.2)))) := by
  rw [expandInterpStep, ho]
  exact getField_setField_self _ _ _

/-- C10: `_expandTimeline(v)` rewrites every content's data blob: a
numeric `low`, `high` or stop `position` strictly past the current time
becomes `max (old + v) currentTime`, values at or before the current time
and non-numeric stop positions stay, and contents without data are
skipped. -/
theorem expand_timeline_moves_markers (t v : Int) (contents : List Content)
    (i : Nat) (c : Content) (hc : contents[i]? = some c) :
    (c.data = none → (expandTimeline t v contents)[i]? = some c)
    ∧ (∀ d, c.data = some d →
        (expandTimeline t v contents)[i]? = some (c.setData (expandData t v d))
        ∧ (∀ l, getField d "low" = some (.num l) →
            getField (expandData t v d) "low" = some (.num (expandVal t v l)))
        ∧ (∀ h2, getField d "high" = some (.num h2) →
            getField (expandData t v d) "high" = some (.num (expandVal t v h2)))
        ∧ (∀ (o : JObj) (name : String) (stops : List JValue),
            getField d "interpolators" = some (.obj o) →
            getField o name = some (.arr stops) →
            ∃ o2, getField (expandData t v d) "interpolators" = some (.obj o2)
              ∧ getField o2 name = some (.arr (stops.map (expandStop t v)))))
    ∧ (∀ n, n > t → expandVal t v n = max (n + v) t)
    ∧ (∀ n, n ≤ t → expandVal t v n = n)
    ∧ (∀ (sf : JObj) (p : Int), getField sf "position" = some (.num p) →
        expandStop t v (.obj sf) = .obj (setField sf "position" (.num (expandVal t v p))))
    ∧ (∀ (sf : JObj) (x : JValue), getField sf "position" = some x →
        (∀ p : Int, x ≠ .num p) → expandStop t v (.obj sf) = .obj sf) := by
  refine ⟨?_, ?_, ?_, ?_, ?_, ?_⟩
  · intro hnone
    simp [expandTimeline, List.getElem?_map, hc, hnone]
  · intro d hd
    refine ⟨by simp [expandTimeline, List.getElem?_map, hc, hd], ?_, ?_, ?_⟩
    · intro l hl
      rw [expandData,
        getField_expandInterpStep_of_ne _ _ _ _ (by decide),
        getField_expandHighStep_of_ne _ _ _ _ (by decide),
        getField_expandLowStep_low _ _ _ _ hl]
    · intro h2 hh
      rw [expandData,
        getField_expandInterpStep_of_ne _ _ _ _ (by decide),
        getField_expandHighStep_high _ _ _ _
          ((getField_expandLowStep_of_ne t v d "high" (by decide)).trans hh)]
    · intro o name stops ho hname
      have ho2 : getField (expandHighStep t v (expandLowStep t v d)) "interpolators"
          = some (.obj o) := by
        rw [getField_expandHighStep_of_ne _ _ _ _ (by decide),
          getField_expandLowStep_of_ne _ _ _ _ (by decide), ho]
      refine ⟨o.map (fun kv => (kv.1, expandEntry t v kv.2)), ?_, ?_⟩
      · rw [expandData, getField_expandInterpStep_interpolators _ _ _ _ ho2]
      · rw [getField_mapValues, hname]
        rfl
  · intro n hn
    simp [expandVal, hn]
  · intro n hn
    simp [expandVal, not_lt.mpr hn]
  · intro sf p hp
    rw [expandStop, hp, expandVal]
    by_cases h : p > t
    · simp [h]
    · simp only [if_neg h]
      rw [setField_self_of_getField sf "position" (.num p) hp]
  · intro sf x hp hx
    rw [expandStop, hp]
    cases x with
    | num p => exact absurd rfl (hx p)
    | str s => rfl
    | jbool b => rfl
    | jnull => rfl
    | arr xs => rfl
    | obj fs => rfl

theorem expand_timeline_moves_markers_witness :
    (expandTimeline 3 100 [sampleContent])[0]?
        = some (sampleContent.setData (expandData 3 100 sampleData))
    ∧ getField (expandData 3 100 sampleData) "high" = some (.num 110)
    ∧ getField (expandData 3 100 sampleData) "low" = some (.num 0) := by
  have h := (expand_timeline_moves_markers 3 100 [sampleContent] 0 sampleContent
      rfl).2.1 sampleData rfl
  refine ⟨h.1, ?_, ?_⟩
  · have h2 := h.2.2.1 10 rfl
    rw [h2]
    rfl
  · have h2 := h.2.1 0 rfl
    rw [h2]
    rfl

/-! ### Visibility invariant (C5) -/

/-- Module rows are never hidden. -/
def modulesVisible (rows : List TRow) : Prop :=
  ∀ r ∈ rows, r.rtype = "module" → r.hidden = false

/-- Every property row's hidden field is the negation of its owning
module's (truthy) expanded flag. -/
def propsTrackFlags (flags : Flags) (rows : List TRow) : Prop :=
  ∀ r ∈ rows, r.rtype = "property" → r.hidden = !flagAt flags r.moduleIdx

/-- Structural well-formedness of a rows list relative to the module
index `m` of the most recent module row: every property row belongs to
that module. Both `_redrawTimeline` output and `_toggleGroup` rewrites
keep this shape, which is what makes the source's running `expanded`
variable agree with each property row's own `moduleIdx`. -/
def rowsWF : Option Nat → List TRow → Prop
  | _, [] => True
  | m, r :: rs =>
    (r.rtype = "property" → m = some r.moduleIdx)
    ∧ rowsWF (if r.rtype = "module" then some r.moduleIdx else m) rs

/-- The module index carried by the walk after traversing `rows`. -/
def mAfter (m : Option Nat) (rows : List TRow) : Option Nat :=
  rows.foldl (fun m r => if r.rtype = "module" then some r.moduleIdx else m) m

theorem rowsWF_append (xs : List TRow) :
    ∀ (ys : List TRow) (m : Option Nat),
      rowsWF m (xs ++ ys) ↔ rowsWF m xs ∧ rowsWF (mAfter m xs) ys := by
  induction xs with
  | nil => intro ys m; simp [rowsWF, mAfter]
  | cons r rs ih =>
    intro ys m
    simp [rowsWF, mAfter, ih, and_assoc]

theorem rowsWF_rowsForContent (c : Content) (i : Nat) (flags : Flags)
    (m : Option Nat) : rowsWF m (rowsForContent c i flags) := by
  rw [rowsForContent]
  refine ⟨by simp [rowFromContent], ?_⟩
  simp only [rowFromContent]
  induction c.interpolators with
  | nil => trivial
  | cons p ps ih =>
    exact ⟨fun _ => rfl, ih⟩

theorem mAfter_rowsForContent (c : Content) (i : Nat) (flags : Flags)
    (m : Option Nat) : mAfter m (rowsForContent c i flags) = some i := by
  rw [rowsForContent, mAfter]
  simp only [List.foldl_cons, rowFromContent]
  induction c.interpolators with
  | nil => rfl
  | cons p ps ih => exact ih

theorem rowsWF_redrawTimeline (contents : List Content) (flags : Flags) :
    rowsWF none (redrawTimeline contents flags) := by
  rw [redrawTimeline_eq_bind]
  suffices h : ∀ (ps : List (Nat × Content)) (m : Option Nat),
      rowsWF m (ps.flatMap (fun p => rowsForContent p.2 p.1 flags)) from
    h contents.enum none
  intro ps
  induction ps with
  | nil => intro m; trivial
  | cons p ps ih =>
    intro m
    rw [List.flatMap_cons, rowsWF_append]
    exact ⟨rowsWF_rowsForContent _ _ _ _, by
      rw [mAfter_rowsForContent]; exact ih _⟩

theorem mem_redrawTimeline (contents : List Content) (flags : Flags) (r : TRow)
    (hr : r ∈ redrawTimeline contents flags) :
    ∃ i c, (i, c) ∈ contents.enum ∧
      (r = rowFromContent c i ∨
        ∃ p ∈ c.interpolators, r = rowFromProperty c i p.1 p.2 flags) := by
  rw [redrawTimeline_eq_bind] at hr
  simp only [List.mem_flatMap] at hr
  obtain ⟨⟨i, c⟩, hic, hr⟩ := hr
  refine ⟨i, c, hic, ?_⟩
  simp only [rowsForContent, List.mem_cons, List.mem_map] at hr
  rcases hr with h | ⟨p, hp, h⟩
  · exact Or.inl h
  · exact Or.inr ⟨p, hp, h.symm⟩

theorem modulesVisible_redrawTimeline (contents : List Content) (flags : Flags) :
    modulesVisible (redrawTimeline contents flags) := by
  intro r hr hmod
  obtain ⟨i, c, _, h | ⟨p, _, h⟩⟩ := mem_redrawTimeline contents flags r hr
  · subst h
    rfl
  · subst h
    exact absurd hmod (by simp [rowFromProperty])

theorem propsTrackFlags_redrawTimeline (contents : List Content) (flags : Flags) :
    propsTrackFlags flags (redrawTimeline contents flags) := by
  intro r hr hp
  obtain ⟨i, c, _, h | ⟨p, _, h⟩⟩ := mem_redrawTimeline contents flags r hr
  · subst h
    exact absurd hp (by simp [rowFromContent])
  · subst h
    rfl

theorem toggleWalk_facts (flags : Flags) :
    ∀ (rows : List TRow) (m : Option Nat) (expanded : Bool),
      (∀ j, m = some j → expanded = flagAt flags j) →
      rowsWF m rows →
      rowsWF m (toggleWalk flags expanded rows)
      ∧ (∀ r ∈ toggleWalk flags expanded rows, r.rtype = "property" →
          r.hidden = !flagAt flags r.moduleIdx)
      ∧ (∀ r ∈ toggleWalk flags expanded rows, r.rtype ≠ "property" → r ∈ rows) := by
  intro rows
  induction rows with
  | nil =>
    intro m expanded _ _
    exact ⟨trivial, by simp [toggleWalk], by simp [toggleWalk]⟩
  | cons r rs ih =>
    intro m expanded hexp hwf
    obtain ⟨hprop, hrest⟩ := hwf
    rw [toggleWalk]
    by_cases hmod : r.rtype = "module"
    · have hnp : ¬r.rtype = "property" := by rw [hmod]; decide
      simp only [hmod, if_pos rfl, hnp, if_neg, if_false]
      have hexp2 : ∀ j, some r.moduleIdx = some j →
          flagAt flags r.moduleIdx = flagAt flags j := by
        intro j hj
        cases hj
        rfl
      have hrest2 : rowsWF (some r.moduleIdx) rs := by
        simpa [hmod] using hrest
      obtain ⟨w1, w2, w3⟩ := ih (some r.moduleIdx) (flagAt flags r.moduleIdx) hexp2 hrest2
      refine ⟨⟨fun h => absurd h hnp, by simpa [hmod] using w1⟩, ?_, ?_⟩
      · intro r2 hr2 hp2
        rcases List.mem_cons.mp hr2 with h | h
        · subst h
          exact absurd hp2 hnp
        · exact w2 r2 h hp2
      · intro r2 hr2 hnp2
        rcases List.mem_cons.mp hr2 with h | h
        · subst h
          exact List.mem_cons_self _ _
        · exact List.mem_cons_of_mem _ (w3 r2 h hnp2)
    · simp only [if_neg hmod]
      have hrest2 : rowsWF m rs := by
        simpa [hmod] using hrest
      obtain ⟨w1, w2, w3⟩ := ih m expanded hexp hrest2
      by_cases hp : r.rtype = "property"
      · simp only [hp, if_pos rfl]
        have hflag : expanded = flagAt flags r.moduleIdx := hexp _ (hprop hp)
        refine ⟨⟨fun _ => hprop hp, by simpa [hmod] using w1⟩, ?_, ?_⟩
        · intro r2 hr2 hp2
          rcases List.mem_cons.mp hr2 with h | h
          · subst h
            simp [hflag]
          · exact w2 r2 h hp2
        · intro r2 hr2 hnp2
          rcases List.mem_cons.mp hr2 with h | h
          · subst h
            exact absurd rfl hnp2
          · exact List.mem_cons_of_mem _ (w3 r2 h hnp2)
      · simp only [if_neg hp]
        refine ⟨⟨fun h => absurd h hp, by simpa [hmod] using w1⟩, ?_, ?_⟩
        · intro r2 hr2 hp2
          rcases List.mem_cons.mp hr2 with h | h
          · subst h
            exact absurd hp2 hp
          · exact w2 r2 h hp2
        · intro r2 hr2 hnp2
          rcases List.mem_cons.mp hr2 with h | h
          · subst h
            exact List.mem_cons_self _ _
          · exact List.mem_cons_of_mem _ (w3 r2 h hnp2)

/-- The state invariant of the visibility claim. -/
def editorInv (s : EditorState) : Prop :=
  modulesVisible s.rows ∧ propsTrackFlags s.expandedRows s.rows ∧ rowsWF none s.rows

theorem editorInv_redrawFull (s : EditorState) : editorInv (redrawFull s) :=
  ⟨modulesVisible_redrawTimeline _ _, propsTrackFlags_redrawTimeline _ _,
    rowsWF_redrawTimeline _ _⟩

theorem editorInv_toggleGroup (s : EditorState) (i : Nat) (h : editorInv s) :
    editorInv (toggleGroup s i) := by
  obtain ⟨hm, _, hwf⟩ := h
  have hexp : ∀ j, (none : Option Nat) = some j →
      false = flagAt (setFlag s.expandedRows i (!flagAt s.expandedRows i)) j := by
    intro j hj
    cases hj
  obtain ⟨w1, w2, w3⟩ := toggleWalk_facts
    (setFlag s.expandedRows i (!flagAt s.expandedRows i)) s.rows none false hexp hwf
  refine ⟨?_, w2, w1⟩
  intro r hr hmod
  have hnp : r.rtype ≠ "property" := by rw [hmod]; decide
  exact hm r (w3 r hr hnp) hmod

theorem editorInv_runOps (s : EditorState) (ops : List EOp) (h : editorInv s) :
    editorInv (runOps s ops) := by
  induction ops generalizing s with
  | nil => exact h
  | cons op ops ih =>
    rw [runOps, List.foldl_cons]
    cases op with
    | toggle i => exact ih _ (editorInv_toggleGroup s i h)
    | redraw => exact ih _ (editorInv_redrawFull _)

theorem flagAt_setFlag_self (flags : Flags) (i : Nat) (b : Bool) :
    flagAt (setFlag flags i b) i = b := by
  rw [setFlag]
  by_cases h : i < flags.length
  · simp [flagAt, h, List.getElem?_set_self]
  · rw [if_neg h, flagAt, List.append_assoc,
      List.getElem?_append_right (by omega), List.getElem?_append_right (by simp)]
    simp

/-- C5: property-row visibility is governed by the per-module flags. A
`_toggleGroup(i)` flips module i's truthy flag, and after a redraw
followed by any sequence of toggle and redraw operations, module rows are
never hidden and every property row's hidden field is the negation of its
owning module's expanded flag. -/
theorem toggle_redraw_visibility (s : EditorState) (ops : List EOp) (i : Nat) :
    flagAt (toggleGroup s i).expandedRows i = !flagAt s.expandedRows i
    ∧ modulesVisible (runOps (redrawFull s) ops).rows
    ∧ propsTrackFlags (runOps (redrawFull s) ops).expandedRows
        (runOps (redrawFull s) ops).rows := by
  have h := editorInv_runOps (redrawFull s) ops (editorInv_redrawFull s)
  exact ⟨flagAt_setFlag_self _ _ _, h.1, h.2.1⟩

theorem toggle_redraw_visibility_witness :
    flagAt (toggleGroup sampleState 0).expandedRows 0 = !flagAt [] 0
    ∧ modulesVisible (runOps (redrawFull sampleState) [.toggle 0, .redraw]).rows
    ∧ propsTrackFlags (runOps (redrawFull sampleState) [.toggle 0, .redraw]).expandedRows
        (runOps (redrawFull sampleState) [.toggle 0, .redraw]).rows :=
  toggle_redraw_visibility sampleState [.toggle 0, .redraw] 0

end MapscrollerEditor
